import Mathlib

/-!
Verification of the rxjs-file-upload chunked upload engine.

The definitions below are a shallow embedding of `src/chunkUpload.ts`
(the rxjs 5 revision, called "Version A" by the design notes) together
with the control-channel guards and the abort cleanup branch of the
rxjs 6 revision ("Version B", the unnamed source file).  Reactive
operators are embedded by their effect on the finite sequences of
values a single subscription observes:

* `mergeScan` over a finite source becomes a structural fold that
  records every emitted accumulator; per the rxjs 5/6 operator, when
  the source completes without a single emission the accumulator seed
  itself is emitted once.
* `single(pred)` becomes a scan over the emitted values; per rxjs 5/6
  it errors with `EmptyError` on an empty source, errors on a second
  matching value, emits the unique matching value on completion, and
  emits `undefined` when the non-empty source completes with no match.
* JavaScript objects used as integer-keyed sets or maps become
  `Finset ℕ` (for the accumulator) or association lists (for the
  progress map); `Object.keys(o).length` becomes `Finset.card`.
-/

namespace RxFileUpload

/-- A JavaScript `Blob`: an immutable byte sequence with `size` and `slice`. -/
structure Blob where
  data : List Nat
deriving DecidableEq, Repr

def Blob.size (b : Blob) : Nat := b.data.length

/-- `Blob.prototype.slice(start, end)` returns the bytes in `[start, end)`,
clamped to the blob's extent. -/
def Blob.toSlice (b : Blob) (s e : Nat) : Blob :=
  ⟨(b.data.take e).drop s⟩

/-- `sliceFile` from `src/chunkUpload.ts` lines 74-83: chunk `i` starts at
`i * chunkSize`; a non-final chunk ends at `(i+1) * chunkSize`, the final
chunk ends at `startSize + (file.size - startSize)`. -/
def sliceFile (file : Blob) (chunks chunkSize : Nat) : List Blob :=
  (List.range chunks).map (fun i =>
    let startSize := i * chunkSize
    let endSize := if i = chunks - 1 then startSize + (file.size - startSize)
                   else (i + 1) * chunkSize
    file.toSlice startSize endSize)

theorem sliceFile_length (file : Blob) (chunks chunkSize : Nat) :
    (sliceFile file chunks chunkSize).length = chunks := by
  simp [sliceFile]

theorem take_append_drop_take {α : Type} (l : List α) (m n : Nat) (h : m ≤ n) :
    l.take m ++ (l.take n).drop m = l.take n := by
  have h1 : (l.take n).take m = l.take m := by
    rw [List.take_take, Nat.min_eq_left h]
  calc l.take m ++ (l.take n).drop m
      = (l.take n).take m ++ (l.take n).drop m := by rw [h1]
    _ = l.take n := List.take_append_drop _ _

theorem join_regular_slices {α : Type} (l : List α) (chunkSize : Nat) :
    ∀ k : Nat,
      (((List.range k).map (fun i => (l.take ((i + 1) * chunkSize)).drop (i * chunkSize))).flatten)
        = l.take (k * chunkSize) := by
  intro k
  induction k with
  | zero => simp
  | succ k ih =>
    rw [List.range_succ, List.map_append, List.flatten_append, ih]
    simp only [List.map_cons, List.map_nil, List.flatten_cons, List.flatten_nil, List.append_nil]
    exact take_append_drop_take l (k * chunkSize) ((k + 1) * chunkSize)
      (Nat.mul_le_mul_right _ (Nat.le_succ k))

theorem sliceFile_getElem (file : Blob) (chunks chunkSize : Nat) (i : Nat) (hi : i < chunks) :
    (sliceFile file chunks chunkSize)[i]? =
      some (file.toSlice (i * chunkSize)
        (if i = chunks - 1 then i * chunkSize + (file.size - i * chunkSize)
         else (i + 1) * chunkSize)) := by
  simp [sliceFile, List.getElem?_map, List.getElem?_range hi]

/-- Claim C7: under `chunkSize * (chunks - 1) < file.size ≤ chunkSize * chunks`
with `chunks ≥ 1`, `sliceFile` returns exactly `chunks` blobs; blob `i` covers
bytes `[i*chunkSize, min ((i+1)*chunkSize) file.size)`; the blobs concatenate
back to the file; every non-final blob has length `chunkSize`; and the final
blob has length `file.size - (chunks-1)*chunkSize`. -/
theorem sliceFile_spec (file : Blob) (chunks chunkSize : Nat)
    (hc : 1 ≤ chunks)
    (hlo : chunkSize * (chunks - 1) < file.size)
    (hhi : file.size ≤ chunkSize * chunks) :
    (sliceFile file chunks chunkSize).length = chunks ∧
    (∀ i, i < chunks →
      (sliceFile file chunks chunkSize)[i]? =
        some ⟨(file.data.take (min ((i + 1) * chunkSize) file.size)).drop (i * chunkSize)⟩) ∧
    ((sliceFile file chunks chunkSize).map Blob.data).flatten = file.data ∧
    (∀ i, i < chunks - 1 →
      ((sliceFile file chunks chunkSize)[i]?).map Blob.size = some chunkSize) ∧
    ((sliceFile file chunks chunkSize)[chunks - 1]?).map Blob.size =
      some (file.size - (chunks - 1) * chunkSize) := by
  have hlen : file.size = file.data.length := rfl
  have hstart : (chunks - 1) * chunkSize ≤ file.size := by
    calc (chunks - 1) * chunkSize = chunkSize * (chunks - 1) := Nat.mul_comm _ _
      _ ≤ file.size := Nat.le_of_lt hlo
  have hcover : ∀ i, i < chunks →
      (sliceFile file chunks chunkSize)[i]? =
        some ⟨(file.data.take (min ((i + 1) * chunkSize) file.size)).drop (i * chunkSize)⟩ := by
    intro i hi
    rw [sliceFile_getElem file chunks chunkSize i hi]
    rcases Nat.lt_or_ge i (chunks - 1) with hlt | hge
    · -- non-final chunk: endSize = (i+1) * chunkSize ≤ file.size
      have hne : i ≠ chunks - 1 := Nat.ne_of_lt hlt
      have hend : (i + 1) * chunkSize ≤ file.size := by
        calc (i + 1) * chunkSize ≤ (chunks - 1) * chunkSize :=
              Nat.mul_le_mul_right _ (Nat.succ_le_of_lt hlt)
          _ ≤ file.size := hstart
      have hmin : min ((i + 1) * chunkSize) file.size = (i + 1) * chunkSize :=
        Nat.min_eq_left hend
      simp [Blob.toSlice, hne, hmin]
    · -- final chunk: i = chunks - 1, endSize = file.size
      have heq : i = chunks - 1 := Nat.le_antisymm (by omega) hge
      subst heq
      have hle : (chunks - 1) * chunkSize ≤ file.size := hstart
      have hendeq : (chunks - 1) * chunkSize + (file.size - (chunks - 1) * chunkSize)
          = file.size := by omega
      have hmin : min ((chunks - 1 + 1) * chunkSize) file.size = file.size := by
        have h1 : chunks - 1 + 1 = chunks := by omega
        rw [h1]
        exact Nat.min_eq_right (by rw [Nat.mul_comm]; exact hhi)
      simp [Blob.toSlice, hendeq, hmin]
  refine ⟨sliceFile_length file chunks chunkSize, hcover, ?_, ?_, ?_⟩
  · -- concatenation
    obtain ⟨c, rfl⟩ : ∃ c, chunks = c + 1 := ⟨chunks - 1, by omega⟩
    have hsplit : List.range (c + 1) = List.range c ++ [c] := by
      simpa using List.range_succ (n := c)
    have hmaps : (sliceFile file (c + 1) chunkSize).map Blob.data =
        ((List.range c).map (fun i => (file.data.take ((i + 1) * chunkSize)).drop (i * chunkSize)))
          ++ [(file.data.take file.size).drop (c * chunkSize)] := by
      rw [sliceFile, List.map_map, hsplit, List.map_append]
      congr 1
      · apply List.map_congr_left
        intro i hi
        have hi' : i < c := List.mem_range.mp hi
        have hne : i ≠ c := by omega
        simp [Blob.toSlice, Function.comp, hne]
      · have hcs : c * chunkSize ≤ file.size := by simpa using hstart
        have hendeq : c * chunkSize + (file.size - c * chunkSize) = file.size := by omega
        simp [Blob.toSlice, Function.comp, hendeq]
    rw [hmaps, List.flatten_append, join_regular_slices]
    simp only [List.flatten_cons, List.flatten_nil, List.append_nil]
    have htake : file.data.take file.size = file.data := by
      rw [hlen]; simp
    rw [htake]
    exact List.take_append_drop _ _
  · -- non-final lengths
    intro i hi
    have hic : i < chunks := by omega
    rw [hcover i hic]
    have hend : (i + 1) * chunkSize ≤ file.size := by
      calc (i + 1) * chunkSize ≤ (chunks - 1) * chunkSize :=
            Nat.mul_le_mul_right _ (Nat.succ_le_of_lt hi)
        _ ≤ file.size := hstart
    have hsucc : (i + 1) * chunkSize = i * chunkSize + chunkSize := Nat.succ_mul i chunkSize
    simp only [Option.map_some', Option.some.injEq, Blob.size, List.length_drop,
      List.length_take]
    rw [← hlen]
    omega
  · -- final length
    have hfin : chunks - 1 < chunks := by omega
    rw [hcover (chunks - 1) hfin]
    have h1 : chunks - 1 + 1 = chunks := by omega
    have hback : file.size ≤ (chunks - 1 + 1) * chunkSize := by
      rw [h1, Nat.mul_comm]; exact hhi
    simp only [Option.map_some', Option.some.injEq, Blob.size, List.length_drop,
      List.length_take]
    rw [← hlen]
    omega

/-- Witness for `sliceFile_spec`: a 5-byte file cut into 2 chunks of size 3. -/
theorem sliceFile_spec_witness :
    (1 ≤ 2 ∧ 3 * (2 - 1) < (Blob.mk [10, 11, 12, 13, 14]).size ∧
       (Blob.mk [10, 11, 12, 13, 14]).size ≤ 3 * 2) ∧
    ((sliceFile (Blob.mk [10, 11, 12, 13, 14]) 2 3).length = 2 ∧
      (∀ i, i < 2 →
        (sliceFile (Blob.mk [10, 11, 12, 13, 14]) 2 3)[i]? =
          some ⟨((Blob.mk [10, 11, 12, 13, 14]).data.take
              (min ((i + 1) * 3) (Blob.mk [10, 11, 12, 13, 14]).size)).drop (i * 3)⟩) ∧
      ((sliceFile (Blob.mk [10, 11, 12, 13, 14]) 2 3).map Blob.data).flatten =
        (Blob.mk [10, 11, 12, 13, 14]).data ∧
      (∀ i, i < 2 - 1 →
        ((sliceFile (Blob.mk [10, 11, 12, 13, 14]) 2 3)[i]?).map Blob.size = some 3) ∧
      ((sliceFile (Blob.mk [10, 11, 12, 13, 14]) 2 3)[2 - 1]?).map Blob.size =
        some ((Blob.mk [10, 11, 12, 13, 14]).size - (2 - 1) * 3)) :=
  ⟨⟨by decide, by decide, by decide⟩,
    sliceFile_spec (Blob.mk [10, 11, 12, 13, 14]) 2 3 (by decide) (by decide) (by decide)⟩

/-- Result of one chunk's upload attempt (`src/chunkUpload.ts` lines 64-67,
built at lines 138-139: success maps to `completed := true`, a caught
transport error maps to `completed := false`). -/
structure ChunkStatus where
  index : Nat
  completed : Bool
deriving DecidableEq, Repr

/-- The dispatcher accumulator `{ completes: {}, errors: {} }`
(`src/chunkUpload.ts` line 154).  The JavaScript objects are used as sets
of chunk indices, so they are embedded as `Finset ℕ`. -/
structure ChunkScan where
  completes : Finset Nat
  errors : Finset Nat
deriving DecidableEq

/-- Errors a dispatcher run can end with: the thrown
`Multiple_Chunk_Upload_Error` (line 150), and the errors the rxjs
`single` operator itself produces (empty source / second match). -/
inductive UploadError where
  | multipleChunkUploadError
  | emptyError
  | moreThanOneElement
deriving DecidableEq, Repr

/-- One `mergeScan` fold step (`src/chunkUpload.ts` lines 145-154): route the
status into `completes` or `errors`, then throw `Multiple_Chunk_Upload_Error`
when `|errors|` reaches `chunks.length > 3 ? 3 : 1`, clearing `errors` first.
Returns the accumulator object's state after the step together with the
thrown error, if any. -/
def mergeScanStep (numChunks : Nat) (acc : ChunkScan) (cs : ChunkStatus) :
    ChunkScan × Option UploadError :=
  let acc' := if cs.completed
    then { acc with completes := insert cs.index acc.completes }
    else { acc with errors := insert cs.index acc.errors }
  if (if 3 < numChunks then 3 else 1) ≤ acc'.errors.card then
    ({ acc' with errors := ∅ }, some UploadError.multipleChunkUploadError)
  else
    (acc', none)

/-- Outcome of folding a whole status sequence with `mergeScan`: the list of
emitted accumulators, the accumulator object's final state, and the error
thrown mid-stream, if any. -/
structure FoldResult where
  emits : List ChunkScan
  final : ChunkScan
  err : Option UploadError
deriving DecidableEq

def mergeScanFold (numChunks : Nat) : ChunkScan → List ChunkStatus → FoldResult
  | acc, [] => ⟨[], acc, none⟩
  | acc, cs :: rest =>
    let s := mergeScanStep numChunks acc cs
    if s.2.isSome then ⟨[], s.1, s.2⟩
    else
      let r := mergeScanFold numChunks s.1 rest
      ⟨s.1 :: r.emits, r.final, r.err⟩

/-- What the `single` stage delivers downstream.  `noMatch` is the rxjs 5/6
behaviour of emitting `undefined` when a non-empty source completes without
any value matching the predicate. -/
inductive SingleOutcome where
  | matched (acc : ChunkScan)
  | noMatch
  | failed (e : UploadError)
deriving DecidableEq

/-- The scan the rxjs `single(pred)` operator performs over the emitted
values: a second match errors immediately; at completion an upstream error is
forwarded, otherwise the unique match (or `undefined`) is emitted. -/
def singleGo (p : ChunkScan → Bool) :
    List ChunkScan → Option ChunkScan → Option UploadError → SingleOutcome
  | [], seen, errOpt =>
    match errOpt with
    | some e => SingleOutcome.failed e
    | none =>
      match seen with
      | some a => SingleOutcome.matched a
      | none => SingleOutcome.noMatch
  | a :: rest, seen, errOpt =>
    if p a then
      match seen with
      | some _ => SingleOutcome.failed UploadError.moreThanOneElement
      | none => singleGo p rest (some a) errOpt
    else
      singleGo p rest seen errOpt

/-- The rxjs `single(pred)` operator on a finite run: `EmptyError` when the
source completed without any value, otherwise the scan above. -/
def singleOp (p : ChunkScan → Bool) (emits : List ChunkScan) (errOpt : Option UploadError) :
    SingleOutcome :=
  match emits with
  | [] =>
    match errOpt with
    | some e => SingleOutcome.failed e
    | none => SingleOutcome.failed UploadError.emptyError
  | _ :: _ => singleGo p emits none errOpt

/-- The seed object `{ completes: {}, errors: {} }` of `src/chunkUpload.ts`
line 154.  It is built once per `uploadAllChunks` call and mutated in place,
so it persists across resubscriptions of the same run. -/
def dispatchSeed : ChunkScan := ⟨∅, ∅⟩

/-- The success predicate of the `single` stage (`src/chunkUpload.ts` lines
155-157): `Object.keys(acc.completes).length === chunks.length`. -/
def singlePred (numChunks : Nat) (acc : ChunkScan) : Bool :=
  acc.completes.card == numChunks

/-- One subscription cycle of the observable returned by `uploadAllChunks`
(`src/chunkUpload.ts` lines 143-158): fold the statuses the chunk attempts
emit, then apply `single`.  Per the rxjs `mergeScan` operator, when the
source completes without a single emission the seed accumulator itself is
emitted once before completion.  Returns the `single` outcome and the
accumulator object's state after the cycle. -/
def dispatchCycle (numChunks : Nat) (acc : ChunkScan) (statuses : List ChunkStatus) :
    SingleOutcome × ChunkScan :=
  let r := mergeScanFold numChunks acc statuses
  let emits := if r.err = none ∧ r.emits = [] then [acc] else r.emits
  (singleOp (singlePred numChunks) emits r.err, r.final)

/-- Downstream of `single`, an emitted value (a matching accumulator or the
`undefined` of a no-match completion) is `mapTo`-ed onto the `FileMeta` and
`concatMap`-ed into `finishChunkUpload` (`src/chunkUpload.ts` lines 185-189):
the session-finish request fires exactly when `single` emitted a value. -/
def firesFinish : SingleOutcome → Bool
  | SingleOutcome.matched _ => true
  | SingleOutcome.noMatch => true
  | SingleOutcome.failed _ => false

/-- The distinct indices that reported a failed attempt in a status list. -/
def failedIndices : List ChunkStatus → Finset Nat
  | [] => ∅
  | cs :: rest =>
    if cs.completed then failedIndices rest else insert cs.index (failedIndices rest)

/-- The distinct indices that reported a successful attempt in a status list. -/
def completedIndices : List ChunkStatus → Finset Nat
  | [] => ∅
  | cs :: rest =>
    if cs.completed then insert cs.index (completedIndices rest) else completedIndices rest

theorem mergeScanFold_err_iff (numChunks : Nat) :
    ∀ (statuses : List ChunkStatus) (acc : ChunkScan),
      acc.errors.card < (if 3 < numChunks then 3 else 1) →
      ((mergeScanFold numChunks acc statuses).err = some UploadError.multipleChunkUploadError ↔
        (if 3 < numChunks then 3 else 1) ≤ (acc.errors ∪ failedIndices statuses).card) := by
  intro statuses
  induction statuses with
  | nil =>
    intro acc hacc
    simp only [mergeScanFold, failedIndices, Finset.union_empty]
    constructor
    · intro h; exact absurd h (by simp)
    · intro h; omega
  | cons cs rest ih =>
    intro acc hacc
    have hnotacc : ¬ (if 3 < numChunks then 3 else 1) ≤ acc.errors.card := Nat.not_le.mpr hacc
    cases hb : cs.completed with
    | true =>
      have hstep : mergeScanStep numChunks acc cs =
          ({ acc with completes := insert cs.index acc.completes }, none) := by
        simp [mergeScanStep, hb, hnotacc]
      have hrec := ih { acc with completes := insert cs.index acc.completes }
        (by simpa using hacc)
      simp only [mergeScanFold, hstep, Option.isSome_none, Bool.false_eq_true, if_false]
      simpa [failedIndices, hb] using hrec
    | false =>
      by_cases hthr : (if 3 < numChunks then 3 else 1) ≤ (insert cs.index acc.errors).card
      · have hstep : mergeScanStep numChunks acc cs =
            ({ completes := acc.completes, errors := ∅ },
              some UploadError.multipleChunkUploadError) := by
          simp [mergeScanStep, hb, hthr]
        have hsub : insert cs.index acc.errors ⊆ acc.errors ∪ failedIndices (cs :: rest) := by
          intro x hx
          rcases Finset.mem_insert.mp hx with h | h
          · subst h
            apply Finset.mem_union_right
            simp [failedIndices, hb]
          · exact Finset.mem_union_left _ h
        have hcard := Finset.card_le_card hsub
        simp only [mergeScanFold, hstep, Option.isSome_some, if_true]
        constructor
        · intro _
          exact le_trans hthr hcard
        · intro _
          trivial
      · have hstep : mergeScanStep numChunks acc cs =
            ({ acc with errors := insert cs.index acc.errors }, none) := by
          simp [mergeScanStep, hb, hthr]
        have hrec := ih { acc with errors := insert cs.index acc.errors }
          (Nat.not_le.mp hthr)
        have hset : insert cs.index acc.errors ∪ failedIndices rest =
            acc.errors ∪ failedIndices (cs :: rest) := by
          ext x
          simp only [Finset.mem_union, Finset.mem_insert, failedIndices, hb, if_false,
            Bool.false_eq_true]
          tauto
        simp only [mergeScanFold, hstep, Option.isSome_none, Bool.false_eq_true, if_false]
        rw [hset] at hrec
        simpa using hrec

/-- Claim C2: after each fold of a `ChunkStatus` into the accumulator the run
fails with `Multiple_Chunk_Upload_Error` — clearing the errors set — if and
only if the number of distinct failed indices reaches the threshold, which is
3 when the chunk count exceeds 3 and 1 otherwise; consequently a whole run
from the fresh seed fails with that error iff the distinct failed indices of
its status sequence reach the threshold. -/
theorem dispatch_error_threshold (numChunks : Nat) :
    (∀ (acc : ChunkScan) (cs : ChunkStatus),
      (((mergeScanStep numChunks acc cs).2 = some UploadError.multipleChunkUploadError) ↔
        (if 3 < numChunks then 3 else 1) ≤
          (if cs.completed then acc.errors else insert cs.index acc.errors).card) ∧
      ((mergeScanStep numChunks acc cs).2 = some UploadError.multipleChunkUploadError →
        (mergeScanStep numChunks acc cs).1.errors = ∅)) ∧
    (∀ statuses : List ChunkStatus,
      ((mergeScanFold numChunks dispatchSeed statuses).err =
          some UploadError.multipleChunkUploadError ↔
        (if 3 < numChunks then 3 else 1) ≤ (failedIndices statuses).card)) := by
  constructor
  · intro acc cs
    cases hb : cs.completed with
    | true =>
      by_cases hthr : (if 3 < numChunks then 3 else 1) ≤ acc.errors.card
      · constructor
        · simp [mergeScanStep, hb, hthr]
        · intro _
          simp [mergeScanStep, hb, hthr]
      · constructor
        · simp [mergeScanStep, hb, hthr]
        · intro habs
          exact absurd habs (by simp [mergeScanStep, hb, hthr])
    | false =>
      by_cases hthr : (if 3 < numChunks then 3 else 1) ≤ (insert cs.index acc.errors).card
      · constructor
        · simp [mergeScanStep, hb, hthr]
        · intro _
          simp [mergeScanStep, hb, hthr]
      · constructor
        · simp [mergeScanStep, hb, hthr]
        · intro habs
          exact absurd habs (by simp [mergeScanStep, hb, hthr])
  · intro statuses
    have hseed : (dispatchSeed.errors.card) < (if 3 < numChunks then 3 else 1) := by
      by_cases h3 : 3 < numChunks <;> simp [dispatchSeed, h3]
    have := mergeScanFold_err_iff numChunks statuses dispatchSeed hseed
    simpa [dispatchSeed] using this

/-- Witness for `dispatch_error_threshold`: a 5-chunk run with three distinct
failed indices fails with `Multiple_Chunk_Upload_Error`. -/
theorem dispatch_error_threshold_witness :
    ((mergeScanFold 5 dispatchSeed
        [⟨0, false⟩, ⟨1, false⟩, ⟨2, false⟩]).err =
        some UploadError.multipleChunkUploadError ↔
      (if 3 < 5 then 3 else 1) ≤
        (failedIndices [⟨0, false⟩, ⟨1, false⟩, ⟨2, false⟩]).card) :=
  (dispatch_error_threshold 5).2 [⟨0, false⟩, ⟨1, false⟩, ⟨2, false⟩]

theorem mergeScanStep_err_shape (numChunks : Nat) (acc : ChunkScan) (cs : ChunkStatus) :
    (mergeScanStep numChunks acc cs).2 = none ∨
    (mergeScanStep numChunks acc cs).2 = some UploadError.multipleChunkUploadError := by
  cases hb : cs.completed with
  | true =>
    by_cases hthr : (if 3 < numChunks then 3 else 1) ≤ acc.errors.card
    · right; simp [mergeScanStep, hb, hthr]
    · left; simp [mergeScanStep, hb, hthr]
  | false =>
    by_cases hthr : (if 3 < numChunks then 3 else 1) ≤ (insert cs.index acc.errors).card
    · right; simp [mergeScanStep, hb, hthr]
    · left; simp [mergeScanStep, hb, hthr]

theorem mergeScanFold_err_cases (numChunks : Nat) :
    ∀ (statuses : List ChunkStatus) (acc : ChunkScan),
      (mergeScanFold numChunks acc statuses).err = none ∨
      (mergeScanFold numChunks acc statuses).err = some UploadError.multipleChunkUploadError := by
  intro statuses
  induction statuses with
  | nil => intro acc; left; rfl
  | cons cs rest ih =>
    intro acc
    by_cases hs : (mergeScanStep numChunks acc cs).2.isSome
    · right
      rcases mergeScanStep_err_shape numChunks acc cs with h | h
      · rw [h] at hs; simp at hs
      · simp [mergeScanFold, hs, h]
    · simp only [mergeScanFold, hs, Bool.false_eq_true, if_false]
      exact ih _

theorem mergeScanFold_final_of_err_none (numChunks : Nat) :
    ∀ (statuses : List ChunkStatus) (acc : ChunkScan),
      (mergeScanFold numChunks acc statuses).err = none →
      (mergeScanFold numChunks acc statuses).final =
        ⟨acc.completes ∪ completedIndices statuses, acc.errors ∪ failedIndices statuses⟩ := by
  intro statuses
  induction statuses with
  | nil =>
    intro acc _
    simp [mergeScanFold, completedIndices, failedIndices]
  | cons cs rest ih =>
    intro acc herr
    by_cases hs : (mergeScanStep numChunks acc cs).2.isSome
    · exfalso
      simp only [mergeScanFold, hs, if_true] at herr
      exact (Option.isSome_iff_ne_none.mp hs) (by simpa using herr)
    · simp only [mergeScanFold, hs, Bool.false_eq_true, if_false] at herr ⊢
      cases hb : cs.completed with
      | true =>
        have hnothr : ¬ (if 3 < numChunks then 3 else 1) ≤ acc.errors.card := by
          intro habs
          exact hs (by simp [mergeScanStep, hb, habs])
        have hstep : (mergeScanStep numChunks acc cs).1 =
            { acc with completes := insert cs.index acc.completes } := by
          simp [mergeScanStep, hb, hnothr]
        rw [hstep] at herr ⊢
        rw [ih _ herr]
        have hc : completedIndices (cs :: rest) = insert cs.index (completedIndices rest) := by
          simp [completedIndices, hb]
        have hf : failedIndices (cs :: rest) = failedIndices rest := by
          simp [failedIndices, hb]
        rw [hc, hf]
        congr 1
        ext x
        simp only [Finset.mem_union, Finset.mem_insert]
        tauto
      | false =>
        have hnothr : ¬ (if 3 < numChunks then 3 else 1) ≤ (insert cs.index acc.errors).card := by
          intro habs
          exact hs (by simp [mergeScanStep, hb, habs])
        have hstep : (mergeScanStep numChunks acc cs).1 =
            { acc with errors := insert cs.index acc.errors } := by
          simp [mergeScanStep, hb, hnothr]
        rw [hstep] at herr ⊢
        rw [ih _ herr]
        have hc : completedIndices (cs :: rest) = completedIndices rest := by
          simp [completedIndices, hb]
        have hf : failedIndices (cs :: rest) = insert cs.index (failedIndices rest) := by
          simp [failedIndices, hb]
        rw [hc, hf]
        congr 1
        ext x
        simp only [Finset.mem_union, Finset.mem_insert]
        tauto

theorem mergeScanFold_completed_emits (numChunks : Nat) :
    ∀ (statuses : List ChunkStatus) (acc : ChunkScan),
      (∀ cs ∈ statuses, cs.completed = true) →
      ¬ (if 3 < numChunks then 3 else 1) ≤ acc.errors.card →
      (mergeScanFold numChunks acc statuses).err = none ∧
      (mergeScanFold numChunks acc statuses).emits =
        (List.range statuses.length).map (fun k =>
          ChunkScan.mk (acc.completes ∪ completedIndices (statuses.take (k + 1)))
            acc.errors) := by
  intro statuses
  induction statuses with
  | nil =>
    intro acc _ _
    exact ⟨rfl, by simp [mergeScanFold]⟩
  | cons cs rest ih =>
    intro acc hall hnothr
    have hb : cs.completed = true := hall cs (by simp)
    have hstep1 : (mergeScanStep numChunks acc cs).1 =
        { acc with completes := insert cs.index acc.completes } := by
      simp [mergeScanStep, hb, hnothr]
    have hstep2 : (mergeScanStep numChunks acc cs).2 = none := by
      simp [mergeScanStep, hb, hnothr]
    have hs : ¬ (mergeScanStep numChunks acc cs).2.isSome = true := by
      rw [hstep2]; simp
    obtain ⟨ihe, ihm⟩ := ih { acc with completes := insert cs.index acc.completes }
      (fun c hc => hall c (by simp [hc])) (by simpa using hnothr)
    constructor
    · simp only [mergeScanFold, hs, Bool.false_eq_true, if_false]
      rw [hstep1]
      exact ihe
    · simp only [mergeScanFold, hs, Bool.false_eq_true, if_false]
      rw [hstep1, ihm]
      rw [List.length_cons, List.range_succ_eq_map, List.map_cons, List.map_map]
      congr 1
      · have h1 : completedIndices ((cs :: rest).take (0 + 1)) = insert cs.index ∅ := by
          simp [completedIndices, hb]
        show ChunkScan.mk (insert cs.index acc.completes) acc.errors =
          ChunkScan.mk (acc.completes ∪ completedIndices ((cs :: rest).take (0 + 1))) acc.errors
        rw [h1]
        congr 1
        ext x
        simp only [Finset.mem_union, Finset.mem_insert, Finset.not_mem_empty, or_false]
        tauto
      · apply List.map_congr_left
        intro k _
        show ChunkScan.mk (insert cs.index acc.completes ∪ completedIndices (rest.take (k + 1)))
            acc.errors =
          ChunkScan.mk (acc.completes ∪ completedIndices ((cs :: rest).take (k + 1 + 1)))
            acc.errors
        have h2 : (cs :: rest).take (k + 1 + 1) = cs :: rest.take (k + 1) := rfl
        have h3 : completedIndices (cs :: rest.take (k + 1)) =
            insert cs.index (completedIndices (rest.take (k + 1))) := by
          simp [completedIndices, hb]
        rw [h2, h3]
        congr 1
        ext x
        simp only [Finset.mem_union, Finset.mem_insert]
        tauto

theorem singleGo_noMatch (p : ChunkScan → Bool) :
    ∀ (l : List ChunkScan), (∀ a ∈ l, p a = false) →
      singleGo p l none none = SingleOutcome.noMatch := by
  intro l
  induction l with
  | nil => intro _; rfl
  | cons a rest ih =>
    intro h
    have ha : p a = false := h a (by simp)
    simp only [singleGo, ha, Bool.false_eq_true, if_false]
    exact ih (fun b hb => h b (by simp [hb]))

theorem singleGo_lastMatch (p : ChunkScan → Bool) :
    ∀ (l : List ChunkScan) (a : ChunkScan), (∀ b ∈ l, p b = false) → p a = true →
      singleGo p (l ++ [a]) none none = SingleOutcome.matched a := by
  intro l
  induction l with
  | nil =>
    intro a _ ha
    simp [singleGo, ha]
  | cons b rest ih =>
    intro a h ha
    have hb : p b = false := h b (by simp)
    simp only [List.cons_append, singleGo, hb, Bool.false_eq_true, if_false]
    exact ih a (fun c hc => h c (by simp [hc])) ha

theorem completedIndices_take_subset :
    ∀ (statuses : List ChunkStatus) (k : Nat),
      completedIndices (statuses.take k) ⊆ completedIndices statuses := by
  intro statuses
  induction statuses with
  | nil => intro k; simp
  | cons cs rest ih =>
    intro k
    cases k with
    | zero => simp [completedIndices]
    | succ k =>
      rw [List.take_succ_cons]
      cases hb : cs.completed with
      | true =>
        simp only [completedIndices, hb, if_true]
        exact Finset.insert_subset_insert _ (ih k)
      | false =>
        simp only [completedIndices, hb, Bool.false_eq_true, if_false]
        exact ih k

theorem failedIndices_all_completed :
    ∀ (statuses : List ChunkStatus), (∀ cs ∈ statuses, cs.completed = true) →
      failedIndices statuses = ∅ := by
  intro statuses
  induction statuses with
  | nil => intro _; rfl
  | cons cs rest ih =>
    intro h
    have hb : cs.completed = true := h cs (by simp)
    simp only [failedIndices, hb, if_true]
    exact ih (fun c hc => h c (by simp [hc]))

/-- Counterexample to claim C1: with `uploadedChunks = {0}` and `chunks = 2`,
the seed accumulator does not contain the pre-uploaded index 0, and a run in
which the remaining chunk 1 succeeds ends with `|completes| = 1 ≠ 2`; the
`single` predicate never matches, so the outcome is the no-match emission
rather than a matched success. -/
theorem resume_preseed_cex :
    (0 : Nat) ∉ dispatchSeed.completes ∧
    (dispatchCycle 2 dispatchSeed [ChunkStatus.mk 1 true]).2.completes.card = 1 ∧
    ((dispatchCycle 2 dispatchSeed [ChunkStatus.mk 1 true]).2.completes.card = 2 → False) ∧
    (dispatchCycle 2 dispatchSeed [ChunkStatus.mk 1 true]).1 = SingleOutcome.noMatch := by
  decide

/-- Claim C1 (amended): the accumulator is seeded with an empty `completes`
set — it is NOT pre-seeded with `uploadedChunks` — so in a dispatcher run
over a `FileMeta` with non-empty `uploadedChunks = S` in which every chunk
not in `S` uploads successfully, `|completes|` only reaches `chunks - |S|`
and the success predicate `|completes| = chunks` never matches; the run still
delivers a value downstream (the rxjs `single` operator emits `undefined`
when its non-empty source completes without a match), so finish fires, but
not through the claimed pre-seeding mechanism. -/
theorem resume_run_no_matched_success (n : Nat) (S : Finset Nat)
    (statuses : List ChunkStatus)
    (hS : S ⊆ Finset.range n) (hS0 : S.Nonempty)
    (hall : ∀ cs ∈ statuses, cs.completed = true)
    (hidx : completedIndices statuses = Finset.range n \ S) :
    dispatchSeed.completes = ∅ ∧
    (dispatchCycle n dispatchSeed statuses).2.completes.card = n - S.card ∧
    (dispatchCycle n dispatchSeed statuses).1 = SingleOutcome.noMatch ∧
    firesFinish (dispatchCycle n dispatchSeed statuses).1 = true := by
  obtain ⟨s0, hs0⟩ := hS0
  have hn : 1 ≤ n := by
    have := hS hs0
    simp only [Finset.mem_range] at this
    omega
  have hScard : 1 ≤ S.card := Finset.card_pos.mpr ⟨s0, hs0⟩
  have hSn : S.card ≤ n := by
    have := Finset.card_le_card hS
    simpa using this
  have hnothr : ¬ (if 3 < n then 3 else 1) ≤ dispatchSeed.errors.card := by
    by_cases h3 : 3 < n <;> simp [dispatchSeed, h3]
  obtain ⟨herr, hemits⟩ := mergeScanFold_completed_emits n statuses dispatchSeed hall hnothr
  have hfail : failedIndices statuses = ∅ := failedIndices_all_completed statuses hall
  have hfinal := mergeScanFold_final_of_err_none n statuses dispatchSeed herr
  rw [hfail, hidx] at hfinal
  have hcard : (Finset.range n \ S).card = n - S.card := by
    rw [Finset.card_sdiff hS, Finset.card_range]
  have hpred : ∀ a ∈ (mergeScanFold n dispatchSeed statuses).emits, singlePred n a = false := by
    rw [hemits]
    intro a ha
    obtain ⟨k, hk, rfl⟩ := List.mem_map.mp ha
    have hsub : dispatchSeed.completes ∪ completedIndices (statuses.take (k + 1)) ⊆
        Finset.range n \ S := by
      rw [show dispatchSeed.completes = ∅ from rfl, Finset.empty_union, ← hidx]
      exact completedIndices_take_subset statuses (k + 1)
    have hle := Finset.card_le_card hsub
    rw [hcard] at hle
    simp only [singlePred]
    have hne : (dispatchSeed.completes ∪ completedIndices (statuses.take (k + 1))).card ≠ n := by
      omega
    exact beq_eq_false_iff_ne.mpr hne
  have houtcome : (dispatchCycle n dispatchSeed statuses).1 = SingleOutcome.noMatch := by
    simp only [dispatchCycle]
    by_cases hnil : (mergeScanFold n dispatchSeed statuses).emits = []
    · rw [if_pos ⟨herr, hnil⟩, herr]
      have hps : singlePred n dispatchSeed = false := by
        simp only [singlePred, dispatchSeed, Finset.card_empty]
        exact beq_eq_false_iff_ne.mpr (by omega)
      show singleOp (singlePred n) [dispatchSeed] none = SingleOutcome.noMatch
      simp only [singleOp]
      exact singleGo_noMatch (singlePred n) [dispatchSeed] (by simpa using hps)
    · rw [if_neg (fun hand => hnil hand.2), herr]
      cases hner : (mergeScanFold n dispatchSeed statuses).emits with
      | nil => exact absurd hner hnil
      | cons e es =>
        show singleOp (singlePred n) (e :: es) none = SingleOutcome.noMatch
        simp only [singleOp]
        apply singleGo_noMatch
        intro a ha
        exact hpred a (by rw [hner]; exact ha)
  refine ⟨rfl, ?_, houtcome, by rw [houtcome]; rfl⟩
  have h2 : (dispatchCycle n dispatchSeed statuses).2 =
      (mergeScanFold n dispatchSeed statuses).final := rfl
  rw [h2, hfinal]
  simp [dispatchSeed, hcard]

/-- Witness for `resume_run_no_matched_success` at `n = 2`, `S = {0}`,
with chunk 1 succeeding. -/
theorem resume_run_no_matched_success_witness :
    (({0} : Finset Nat) ⊆ Finset.range 2 ∧ ({0} : Finset Nat).Nonempty ∧
      (∀ cs ∈ [ChunkStatus.mk 1 true], cs.completed = true) ∧
      completedIndices [ChunkStatus.mk 1 true] = Finset.range 2 \ {0}) ∧
    (dispatchSeed.completes = ∅ ∧
      (dispatchCycle 2 dispatchSeed [ChunkStatus.mk 1 true]).2.completes.card =
        2 - ({0} : Finset Nat).card ∧
      (dispatchCycle 2 dispatchSeed [ChunkStatus.mk 1 true]).1 = SingleOutcome.noMatch ∧
      firesFinish (dispatchCycle 2 dispatchSeed [ChunkStatus.mk 1 true]).1 = true) :=
  ⟨⟨by decide, by decide, by decide, by decide⟩,
    resume_run_no_matched_success 2 {0} [ChunkStatus.mk 1 true]
      (by decide) (by decide) (by decide) (by decide)⟩

/-- Counterexample to claim C10: for the empty chunk list the dispatcher run
does NOT error — the outcome is a matched success on the seed accumulator,
not the claimed error. -/
theorem zero_chunks_error_cex :
    (dispatchCycle 0 dispatchSeed []).1 = SingleOutcome.matched dispatchSeed ∧
    (dispatchCycle 0 dispatchSeed []).1 ≠ SingleOutcome.failed UploadError.emptyError ∧
    firesFinish (dispatchCycle 0 dispatchSeed []).1 = true := by
  decide

/-- Claim C10 (amended): for the empty chunk list the fold emits nothing and
throws nothing, so — per the rxjs `mergeScan` operator — the seed accumulator
is emitted once on completion; the `single` predicate `|completes| = 0 =
chunks` matches it, and the run succeeds: a zero-chunk upload reaches
finish rather than erroring. -/
theorem zero_chunks_run_succeeds :
    (mergeScanFold 0 dispatchSeed []).emits = [] ∧
    (mergeScanFold 0 dispatchSeed []).err = none ∧
    singlePred 0 dispatchSeed = true ∧
    (dispatchCycle 0 dispatchSeed []).1 = SingleOutcome.matched dispatchSeed ∧
    firesFinish (dispatchCycle 0 dispatchSeed []).1 = true := by
  decide

theorem completedIndices_eq_toFinset :
    ∀ (statuses : List ChunkStatus), (∀ cs ∈ statuses, cs.completed = true) →
      completedIndices statuses = (statuses.map ChunkStatus.index).toFinset := by
  intro statuses
  induction statuses with
  | nil => intro _; rfl
  | cons cs rest ih =>
    intro h
    have hb : cs.completed = true := h cs (by simp)
    simp only [completedIndices, hb, if_true, List.map_cons, List.toFinset_cons]
    rw [ih (fun c hc => h c (by simp [hc]))]

theorem completedIndices_take_card (statuses : List ChunkStatus)
    (hall : ∀ cs ∈ statuses, cs.completed = true)
    (hnd : (statuses.map ChunkStatus.index).Nodup) (m : Nat) (hm : m ≤ statuses.length) :
    (completedIndices (statuses.take m)).card = m := by
  have hall' : ∀ cs ∈ statuses.take m, cs.completed = true :=
    fun cs hcs => hall cs (List.mem_of_mem_take hcs)
  rw [completedIndices_eq_toFinset _ hall']
  have hmt : (statuses.take m).map ChunkStatus.index =
      (statuses.map ChunkStatus.index).take m := List.map_take ..
  rw [hmt]
  have hnd' : ((statuses.map ChunkStatus.index).take m).Nodup :=
    List.Nodup.sublist (List.take_sublist _ _) hnd
  rw [List.toFinset_card_of_nodup hnd', List.length_take, List.length_map]
  omega

/-- Helper: `singleOp` on a non-empty emission list is the `singleGo` scan. -/
theorem singleOp_of_ne_nil (p : ChunkScan → Bool) (l : List ChunkScan)
    (e : Option UploadError) (h : l ≠ []) : singleOp p l e = singleGo p l none e := by
  cases l with
  | nil => exact absurd rfl h
  | cons a rest => rfl

/-- Claim C3: with more than 3 chunks and strictly fewer than 3 distinct
failed indices `F`, where the chunks attempted in the first dispatch cycle
are `A1` (all succeeding except `F`) and — after the cycle is cancelled and
resubscribed, the per-chunk `completed` sentinels and the shared accumulator
object persisting — the second cycle attempts exactly the remaining chunks
`(range n \ A1) ∪ F` and they all succeed, the run succeeds: no
`Multiple_Chunk_Upload_Error` is thrown in either cycle, the second cycle's
`single` stage matches (|completes| = n), and finish fires. -/
theorem transient_failures_then_success
    (n : Nat) (F A1 : Finset Nat) (evs1 evs2 : List ChunkStatus)
    (hn : 3 < n)
    (hA1 : A1 ⊆ Finset.range n) (hFA : F ⊆ A1)
    (hFpos : F.Nonempty) (hFcard : F.card < 3)
    (h1f : failedIndices evs1 = F)
    (h1c : completedIndices evs1 = A1 \ F)
    (h2all : ∀ cs ∈ evs2, cs.completed = true)
    (h2nd : (evs2.map ChunkStatus.index).Nodup)
    (h2set : completedIndices evs2 = (Finset.range n \ A1) ∪ F) :
    (mergeScanFold n dispatchSeed evs1).err = none ∧
    (dispatchCycle n (mergeScanFold n dispatchSeed evs1).final evs2).1 =
      SingleOutcome.matched (ChunkScan.mk (Finset.range n) F) ∧
    firesFinish (dispatchCycle n (mergeScanFold n dispatchSeed evs1).final evs2).1 = true := by
  have hthr : (if 3 < n then 3 else 1) = 3 := by simp [hn]
  have han : A1.card ≤ n := by
    have := Finset.card_le_card hA1
    simpa using this
  have hfa : F.card ≤ A1.card := Finset.card_le_card hFA
  -- cycle 1 does not throw
  have hseedcard : dispatchSeed.errors.card < (if 3 < n then 3 else 1) := by
    simp [dispatchSeed, hthr]
  have herr1 : (mergeScanFold n dispatchSeed evs1).err = none := by
    rcases mergeScanFold_err_cases n evs1 dispatchSeed with h | h
    · exact h
    · exfalso
      have hle := (mergeScanFold_err_iff n evs1 dispatchSeed hseedcard).mp h
      rw [h1f, hthr] at hle
      have : (dispatchSeed.errors ∪ F).card = F.card := by
        simp [dispatchSeed]
      omega
  -- the accumulator object after cycle 1
  have hfinal1 := mergeScanFold_final_of_err_none n evs1 dispatchSeed herr1
  rw [h1f, h1c] at hfinal1
  have hacc1c : (mergeScanFold n dispatchSeed evs1).final.completes = A1 \ F := by
    rw [hfinal1]; simp [dispatchSeed]
  have hacc1e : (mergeScanFold n dispatchSeed evs1).final.errors = F := by
    rw [hfinal1]; simp [dispatchSeed]
  have hnothr2 : ¬ (if 3 < n then 3 else 1) ≤
      (mergeScanFold n dispatchSeed evs1).final.errors.card := by
    rw [hacc1e, hthr]
    omega
  -- cycle 2: no throw and emitted accumulators in closed form
  obtain ⟨herr2, hemits2⟩ :=
    mergeScanFold_completed_emits n evs2 (mergeScanFold n dispatchSeed evs1).final
      h2all hnothr2
  -- the lengths and cards involved
  have hsdA : (A1 \ F).card = A1.card - F.card := Finset.card_sdiff hFA
  have hdisjRF : Disjoint (Finset.range n \ A1) F := by
    rw [Finset.disjoint_left]
    intro x hx hxF
    exact (Finset.mem_sdiff.mp hx).2 (hFA hxF)
  have hcard2 : (completedIndices evs2).card = n - A1.card + F.card := by
    rw [h2set, Finset.card_union_of_disjoint hdisjRF, Finset.card_sdiff hA1,
      Finset.card_range]
  have hlen2 : evs2.length = n - A1.card + F.card := by
    rw [← hcard2, completedIndices_eq_toFinset evs2 h2all,
      List.toFinset_card_of_nodup h2nd, List.length_map]
  have hlenpos : 1 ≤ evs2.length := by
    obtain ⟨f0, hf0⟩ := hFpos
    have hf0' : f0 ∈ completedIndices evs2 := by
      rw [h2set]
      exact Finset.mem_union_right _ hf0
    cases hv : evs2 with
    | nil =>
      rw [hv] at hf0'
      exact absurd hf0' (by simp [completedIndices])
    | cons e es => simp [hv]
  -- disjointness of the cycle-2 attempts from the cycle-1 completes
  have hdisj : ∀ k, Disjoint (A1 \ F) (completedIndices (evs2.take (k + 1))) := by
    intro k
    apply Finset.disjoint_of_subset_right (completedIndices_take_subset evs2 (k + 1))
    rw [h2set, Finset.disjoint_left]
    intro x hx hxu
    obtain ⟨hxA, hxnF⟩ := Finset.mem_sdiff.mp hx
    rcases Finset.mem_union.mp hxu with hl | hr
    · exact (Finset.mem_sdiff.mp hl).2 hxA
    · exact hxnF hr
  -- the card of the k-th emitted accumulator
  have hcardk : ∀ k, k < evs2.length →
      ((mergeScanFold n dispatchSeed evs1).final.completes ∪
        completedIndices (evs2.take (k + 1))).card = A1.card - F.card + (k + 1) := by
    intro k hk
    rw [hacc1c, Finset.card_union_of_disjoint (hdisj k),
      completedIndices_take_card evs2 h2all h2nd (k + 1) (by omega), hsdA]
  -- the matched accumulator: the last emitted one
  have hlastc : (mergeScanFold n dispatchSeed evs1).final.completes ∪
      completedIndices evs2 = Finset.range n := by
    rw [hacc1c, h2set]
    ext x
    simp only [Finset.mem_union, Finset.mem_sdiff, Finset.mem_range]
    constructor
    · rintro (⟨hA, _⟩ | (⟨hx, _⟩ | hF))
      · exact Finset.mem_range.mp (hA1 hA)
      · exact hx
      · exact Finset.mem_range.mp (hA1 (hFA hF))
    · intro hx
      by_cases hA : x ∈ A1
      · by_cases hF : x ∈ F
        · right; right; exact hF
        · left; exact ⟨hA, hF⟩
      · right; left; exact ⟨hx, hA⟩
  -- assemble the single outcome
  obtain ⟨m, hm⟩ : ∃ m, evs2.length = m + 1 := ⟨evs2.length - 1, by omega⟩
  have hemits2' : (mergeScanFold n (mergeScanFold n dispatchSeed evs1).final evs2).emits =
      ((List.range m).map (fun k =>
        ChunkScan.mk ((mergeScanFold n dispatchSeed evs1).final.completes ∪
          completedIndices (evs2.take (k + 1)))
          (mergeScanFold n dispatchSeed evs1).final.errors)) ++
        [ChunkScan.mk ((mergeScanFold n dispatchSeed evs1).final.completes ∪
          completedIndices (evs2.take (m + 1)))
          (mergeScanFold n dispatchSeed evs1).final.errors] := by
    rw [hemits2, hm, List.range_succ, List.map_append, List.map_cons, List.map_nil]
  have hpredlast : singlePred n
      (ChunkScan.mk ((mergeScanFold n dispatchSeed evs1).final.completes ∪
        completedIndices (evs2.take (m + 1)))
        (mergeScanFold n dispatchSeed evs1).final.errors) = true := by
    simp only [singlePred]
    apply beq_iff_eq.mpr
    have := hcardk m (by omega)
    simp only at this ⊢
    rw [this]
    omega
  have hpredearly : ∀ b ∈ (List.range m).map (fun k =>
      ChunkScan.mk ((mergeScanFold n dispatchSeed evs1).final.completes ∪
        completedIndices (evs2.take (k + 1)))
        (mergeScanFold n dispatchSeed evs1).final.errors), singlePred n b = false := by
    intro b hb
    obtain ⟨k, hk, rfl⟩ := List.mem_map.mp hb
    have hkm : k < m := List.mem_range.mp hk
    have := hcardk k (by omega)
    simp only [singlePred]
    apply beq_eq_false_iff_ne.mpr
    simp only at this ⊢
    rw [this]
    omega
  have htake2 : evs2.take (m + 1) = evs2 := by
    rw [← hm]
    simp
  have hmatchval : ChunkScan.mk ((mergeScanFold n dispatchSeed evs1).final.completes ∪
      completedIndices (evs2.take (m + 1)))
      (mergeScanFold n dispatchSeed evs1).final.errors =
      ChunkScan.mk (Finset.range n) F := by
    rw [htake2, hlastc, hacc1e]
  have houtcome : (dispatchCycle n (mergeScanFold n dispatchSeed evs1).final evs2).1 =
      SingleOutcome.matched (ChunkScan.mk (Finset.range n) F) := by
    simp only [dispatchCycle]
    have hne : (mergeScanFold n (mergeScanFold n dispatchSeed evs1).final evs2).emits ≠ [] := by
      rw [hemits2']
      simp
    rw [if_neg (fun hand => hne hand.2), herr2,
      singleOp_of_ne_nil _ _ _ hne, hemits2']
    rw [singleGo_lastMatch (singlePred n) _ _ hpredearly hpredlast]
    rw [hmatchval]
  exact ⟨herr1, houtcome, by rw [houtcome]; rfl⟩

/-- Witness for `transient_failures_then_success`: 5 chunks, chunks 1 and 3
fail in the first cycle and succeed in the second. -/
theorem transient_failures_then_success_witness :
    ((3 < 5) ∧ (({0, 1, 2, 3, 4} : Finset Nat) ⊆ Finset.range 5) ∧
      (({1, 3} : Finset Nat) ⊆ {0, 1, 2, 3, 4}) ∧
      ({1, 3} : Finset Nat).Nonempty ∧ ({1, 3} : Finset Nat).card < 3 ∧
      failedIndices [ChunkStatus.mk 0 true, ChunkStatus.mk 1 false, ChunkStatus.mk 2 true,
        ChunkStatus.mk 3 false, ChunkStatus.mk 4 true] = {1, 3} ∧
      completedIndices [ChunkStatus.mk 0 true, ChunkStatus.mk 1 false, ChunkStatus.mk 2 true,
        ChunkStatus.mk 3 false, ChunkStatus.mk 4 true] = ({0, 1, 2, 3, 4} : Finset Nat) \ {1, 3} ∧
      (∀ cs ∈ [ChunkStatus.mk 1 true, ChunkStatus.mk 3 true], cs.completed = true) ∧
      (([ChunkStatus.mk 1 true, ChunkStatus.mk 3 true].map ChunkStatus.index).Nodup) ∧
      completedIndices [ChunkStatus.mk 1 true, ChunkStatus.mk 3 true] =
        (Finset.range 5 \ ({0, 1, 2, 3, 4} : Finset Nat)) ∪ {1, 3}) ∧
    ((mergeScanFold 5 dispatchSeed [ChunkStatus.mk 0 true, ChunkStatus.mk 1 false,
        ChunkStatus.mk 2 true, ChunkStatus.mk 3 false, ChunkStatus.mk 4 true]).err = none ∧
      (dispatchCycle 5 (mergeScanFold 5 dispatchSeed [ChunkStatus.mk 0 true,
          ChunkStatus.mk 1 false, ChunkStatus.mk 2 true, ChunkStatus.mk 3 false,
          ChunkStatus.mk 4 true]).final
        [ChunkStatus.mk 1 true, ChunkStatus.mk 3 true]).1 =
        SingleOutcome.matched (ChunkScan.mk (Finset.range 5) {1, 3}) ∧
      firesFinish (dispatchCycle 5 (mergeScanFold 5 dispatchSeed [ChunkStatus.mk 0 true,
          ChunkStatus.mk 1 false, ChunkStatus.mk 2 true, ChunkStatus.mk 3 false,
          ChunkStatus.mk 4 true]).final
        [ChunkStatus.mk 1 true, ChunkStatus.mk 3 true]).1 = true) :=
  ⟨⟨by decide, by decide, by decide, by decide, by decide, by decide, by decide,
      by decide, by decide, by decide⟩,
    transient_failures_then_success 5 {1, 3} {0, 1, 2, 3, 4}
      [ChunkStatus.mk 0 true, ChunkStatus.mk 1 false, ChunkStatus.mk 2 true,
        ChunkStatus.mk 3 false, ChunkStatus.mk 4 true]
      [ChunkStatus.mk 1 true, ChunkStatus.mk 3 true]
      (by decide) (by decide) (by decide) (by decide) (by decide) (by decide)
      (by decide) (by decide) (by decide) (by decide)⟩

/-- The per-chunk deferred attempt of `src/chunkUpload.ts` lines 122-141: the
`completed` sentinel is initialised to `fileMeta.uploadedChunks.indexOf(i) >= 0`
(line 123); when it is set the defer yields `Observable.empty()` and no POST
is issued (lines 125-127); otherwise one POST is issued and exactly one
`ChunkStatus` is yielded — success, or a caught failure (lines 128-139).
Returns the yielded statuses and the number of POSTs issued. -/
def chunkDefer (uploadedChunks : List Nat) (i : Nat) (outcome : Bool) :
    List ChunkStatus × Nat :=
  if uploadedChunks.contains i then ([], 0)
  else ([ChunkStatus.mk i outcome], 1)

/-- The total number of chunk POSTs a dispatcher run issues: one per chunk
index whose sentinel is unset. -/
def runPosts (numChunks : Nat) (uploadedChunks : List Nat) (outcome : Nat → Bool) : Nat :=
  ((List.range numChunks).map (fun i => (chunkDefer uploadedChunks i (outcome i)).2)).sum

/-- Claim C4: a per-chunk attempt for an index in `uploadedChunks` yields no
status and issues no POST, and a run over `chunks` indices issues exactly
`chunks - |uploadedChunks|` POSTs (one per index not uploaded). -/
theorem uploaded_chunks_skipped (numChunks : Nat) (uploadedChunks : List Nat)
    (outcome : Nat → Bool)
    (hbound : ∀ j ∈ uploadedChunks, j < numChunks) :
    (∀ i oc, uploadedChunks.contains i → chunkDefer uploadedChunks i oc = ([], 0)) ∧
    runPosts numChunks uploadedChunks outcome =
      numChunks - uploadedChunks.toFinset.card := by
  constructor
  · intro i oc hi
    have him : i ∈ uploadedChunks := by simpa using hi
    simp [chunkDefer, hi, him]
  · have hsum : ∀ l : List Nat,
        (l.map (fun i => (chunkDefer uploadedChunks i (outcome i)).2)).sum =
          (l.filter (fun i => !uploadedChunks.contains i)).length := by
      intro l
      induction l with
      | nil => rfl
      | cons a t ih =>
        by_cases h : uploadedChunks.contains a
        · have him : a ∈ uploadedChunks := by simpa using h
          have hv : (chunkDefer uploadedChunks a (outcome a)).2 = 0 := by
            simp [chunkDefer, him]
          rw [List.map_cons, List.sum_cons, hv, ih,
            List.filter_cons_of_neg (by simpa using him)]
          omega
        · have hnm : a ∉ uploadedChunks := by simpa using h
          have hv : (chunkDefer uploadedChunks a (outcome a)).2 = 1 := by
            simp [chunkDefer, hnm]
          rw [List.map_cons, List.sum_cons, hv, ih,
            List.filter_cons_of_pos (by simpa using hnm), List.length_cons]
          omega
    have hnd : ((List.range numChunks).filter
        (fun i => !uploadedChunks.contains i)).Nodup :=
      List.Nodup.filter _ (List.nodup_range _)
    have hsub : uploadedChunks.toFinset ⊆ Finset.range numChunks := by
      intro x hx
      simp only [List.mem_toFinset] at hx
      exact Finset.mem_range.mpr (hbound x hx)
    have hrt : (List.range numChunks).toFinset = Finset.range numChunks := by
      ext x
      simp [List.mem_range]
    have hfl : ((List.range numChunks).filter
        (fun i => !uploadedChunks.contains i)).toFinset =
        Finset.range numChunks \ uploadedChunks.toFinset := by
      rw [List.toFinset_filter, hrt]
      ext x
      simp only [Finset.mem_filter, Finset.mem_sdiff, Finset.mem_range, List.mem_toFinset]
      constructor
      · rintro ⟨h1, h2⟩
        exact ⟨h1, by simpa using h2⟩
      · rintro ⟨h1, h2⟩
        exact ⟨h1, by simpa using h2⟩
    unfold runPosts
    rw [hsum, ← List.toFinset_card_of_nodup hnd, hfl, Finset.card_sdiff hsub,
      Finset.card_range]

/-- Witness for `uploaded_chunks_skipped`: 5 chunks with `uploadedChunks =
[0, 2, 4]` issue exactly 2 POSTs. -/
theorem uploaded_chunks_skipped_witness :
    (∀ j ∈ [0, 2, 4], j < 5) ∧
    ((∀ i oc, ([0, 2, 4] : List Nat).contains i → chunkDefer [0, 2, 4] i oc = ([], 0)) ∧
      runPosts 5 [0, 2, 4] (fun _ => true) = 5 - ([0, 2, 4] : List Nat).toFinset.card) :=
  ⟨by decide, uploaded_chunks_skipped 5 [0, 2, 4] (fun _ => true) (by decide)⟩

/-- The server-returned `FileMeta`, restricted to the fields the modeled
logic reads (`chunks`, `chunkSize`, `fileSize`, `uploadedChunks`); the
remaining fields of the TypeScript interface are opaque to every modeled
code path. -/
structure FileMeta where
  chunks : Nat
  chunkSize : Nat
  fileSize : Nat
  uploadedChunks : List Nat
deriving DecidableEq, Repr

/-- One subscription of the deferred observable built by `startChunkUpload`
(`src/chunkUpload.ts` lines 85-101): on a cache hit it yields the cached
`FileMeta` and issues no request; on a miss it issues the session-open POST,
caches the server's response, and yields it.  Returns the new cache, the
yielded value, and whether a request was issued. -/
def openerSubscribe (cache : Option FileMeta) (serverResponse : FileMeta) :
    Option FileMeta × FileMeta × Bool :=
  match cache with
  | some m => (some m, m, false)
  | none => (some serverResponse, serverResponse, true)

/-- The values yielded and request flags over `k` successive subscriptions of
the same opener observable. -/
def openerTrace (serverResponse : FileMeta) : Nat → Option FileMeta → List (FileMeta × Bool)
  | 0, _ => []
  | k + 1, cache =>
    let s := openerSubscribe cache serverResponse
    (s.2.1, s.2.2) :: openerTrace serverResponse k s.1

theorem openerTrace_cached (m : FileMeta) :
    ∀ k : Nat, openerTrace m k (some m) = List.replicate k (m, false) := by
  intro k
  induction k with
  | zero => rfl
  | succ k ih =>
    simp only [openerTrace, openerSubscribe, List.replicate_succ]
    rw [ih]

/-- Claim C5: starting from an empty cache, the first subscription issues the
session-open request and every one of the `k` subscriptions yields the same
cached `FileMeta`; exactly one request is issued in total. -/
theorem session_open_once (m : FileMeta) (k : Nat) (hk : 1 ≤ k) :
    openerTrace m k none = (m, true) :: List.replicate (k - 1) (m, false) ∧
    ((openerTrace m k none).filter (fun yb => yb.2)).length = 1 ∧
    (∀ yb ∈ openerTrace m k none, yb.1 = m) := by
  obtain ⟨j, rfl⟩ : ∃ j, k = j + 1 := ⟨k - 1, by omega⟩
  have htrace : openerTrace m (j + 1) none = (m, true) :: List.replicate j (m, false) := by
    simp only [openerTrace, openerSubscribe]
    rw [openerTrace_cached m j]
  refine ⟨by simpa using htrace, ?_, ?_⟩
  · rw [htrace]
    simp [List.filter_replicate]
  · intro yb hyb
    rw [htrace] at hyb
    rcases List.mem_cons.mp hyb with h | h
    · rw [h]
    · exact congrArg Prod.fst (List.eq_of_mem_replicate h)

/-- Witness for `session_open_once` at `k = 3`. -/
theorem session_open_once_witness :
    1 ≤ 3 ∧
    (openerTrace (FileMeta.mk 5 100 500 []) 3 none =
        (FileMeta.mk 5 100 500 [], true) ::
          List.replicate (3 - 1) (FileMeta.mk 5 100 500 [], false) ∧
      ((openerTrace (FileMeta.mk 5 100 500 []) 3 none).filter (fun yb => yb.2)).length = 1 ∧
      (∀ yb ∈ openerTrace (FileMeta.mk 5 100 500 []) 3 none, yb.1 = FileMeta.mk 5 100 500 [])) :=
  ⟨by decide, session_open_once (FileMeta.mk 5 100 500 []) 3 (by decide)⟩

/-- A per-chunk byte-progress report `{ i, loaded }` pushed to the progress
subject (`src/chunkUpload.ts` lines 69-72 and 133-135). -/
structure ChunkProgress where
  index : Nat
  loaded : Nat
deriving DecidableEq, Repr

/-- `acc[chunkProgress.i] = chunkProgress.loaded` on the `scan` accumulator
(`src/chunkUpload.ts` lines 218-221): a JavaScript object mapping chunk index
to the latest reported `loaded`, embedded as an association list — an
existing key is overwritten in place, a new key is appended. -/
def updProgress : List (Nat × Nat) → Nat → Nat → List (Nat × Nat)
  | [], i, l => [(i, l)]
  | (j, v) :: rest, i, l =>
    if j = i then (i, l) :: rest else (j, v) :: updProgress rest i l

/-- The successive accumulator states the `scan` stage emits. -/
def accStates : List (Nat × Nat) → List ChunkProgress → List (List (Nat × Nat))
  | _, [] => []
  | acc, e :: rest =>
    let next := updProgress acc e.index e.loaded
    next :: accStates next rest

/-- `Object.keys(acc).reduce((t, i) => t + acc[i], 0)` (line 224): the sum of
the latest `loaded` of every chunk that has reported. -/
def sumLoaded (acc : List (Nat × Nat)) : Nat := (acc.map Prod.snd).sum

/-- The progress fractions handed to `distinctUntilChanged` (lines 217-225):
each scan state combined (via `combineLatest`) with the cached `FileMeta`,
summed and divided by `fileSize`.  The JavaScript number division is modeled
in `ℚ`. -/
def progressRatios (fileSize : Nat) (events : List ChunkProgress) : List ℚ :=
  (accStates [] events).map (fun acc => (sumLoaded acc : ℚ) / (fileSize : ℚ))

/-- `distinctUntilChanged((x, y) => x > y)` (line 226): a candidate value is
dropped exactly when the comparator holds of (last emitted value, candidate),
i.e. when the candidate is strictly smaller than the last emitted value; it
is emitted whenever it is greater than or equal to it. -/
def emitNotLess : Option ℚ → List ℚ → List ℚ
  | _, [] => []
  | none, v :: rest => v :: emitNotLess (some v) rest
  | some p, v :: rest =>
    if p > v then emitNotLess (some p) rest else v :: emitNotLess (some v) rest

/-- The sequence of values `progress$` emits during a run whose progress
events are `events`. -/
def progressEmits (fileSize : Nat) (events : List ChunkProgress) : List ℚ :=
  emitNotLess none (progressRatios fileSize events)

/-- Counterexample to claim C6: when a chunk reports the same `loaded` twice,
the same aggregate value passes `distinctUntilChanged((x, y) => x > y)` twice
— the comparator only suppresses strictly smaller values — so the emitted
sequence `[1/10, 1/10]` is not strictly increasing. -/
theorem progress_strict_increase_cex :
    progressEmits 100 [ChunkProgress.mk 0 10, ChunkProgress.mk 0 10] =
      [1 / 10, 1 / 10] ∧
    ¬ List.Chain' (fun x y : ℚ => x < y)
        (progressEmits 100 [ChunkProgress.mk 0 10, ChunkProgress.mk 0 10]) := by
  constructor
  · norm_num [progressEmits, progressRatios, accStates, updProgress, sumLoaded, emitNotLess]
  · intro hchain
    have h : progressEmits 100 [ChunkProgress.mk 0 10, ChunkProgress.mk 0 10] =
        [1 / 10, 1 / 10] := by
      norm_num [progressEmits, progressRatios, accStates, updProgress, sumLoaded, emitNotLess]
    rw [h] at hchain
    have := List.chain'_cons.mp hchain
    exact absurd this.1 (by norm_num)

theorem emitNotLess_chain_some :
    ∀ (l : List ℚ) (p : ℚ),
      List.Chain' (fun x y : ℚ => x ≤ y) (emitNotLess (some p) l) ∧
      (∀ q, (emitNotLess (some p) l).head? = some q → p ≤ q) := by
  intro l
  induction l with
  | nil =>
    intro p
    exact ⟨List.chain'_nil, fun q h => by simp [emitNotLess] at h⟩
  | cons v rest ih =>
    intro p
    by_cases h : p > v
    · simpa [emitNotLess, h] using ih p
    · have hpv : p ≤ v := le_of_not_lt h
      simp only [emitNotLess, h, if_false]
      constructor
      · rw [List.chain'_cons']
        exact ⟨fun b hb => (ih v).2 b hb, (ih v).1⟩
      · intro q hq
        simp only [List.head?_cons, Option.some.injEq] at hq
        rw [← hq]
        exact hpv

theorem emitNotLess_chain :
    ∀ l : List ℚ, List.Chain' (fun x y : ℚ => x ≤ y) (emitNotLess none l) := by
  intro l
  cases l with
  | nil => exact List.chain'_nil
  | cons v rest =>
    simp only [emitNotLess]
    rw [List.chain'_cons']
    exact ⟨fun b hb => (emitNotLess_chain_some rest v).2 b hb,
      (emitNotLess_chain_some rest v).1⟩

theorem emitNotLess_subset :
    ∀ (l : List ℚ) (p : Option ℚ) (v : ℚ), v ∈ emitNotLess p l → v ∈ l := by
  intro l
  induction l with
  | nil =>
    intro p v hv
    cases p <;> simp [emitNotLess] at hv
  | cons w rest ih =>
    intro p v hv
    cases p with
    | none =>
      simp only [emitNotLess, List.mem_cons] at hv
      rcases hv with h | h
      · simp [h]
      · exact List.mem_cons_of_mem _ (ih (some w) v h)
    | some q =>
      by_cases hq : q > w
      · simp only [emitNotLess, hq, if_true] at hv
        exact List.mem_cons_of_mem _ (ih (some q) v hv)
      · simp only [emitNotLess, hq, if_false, List.mem_cons] at hv
        rcases hv with h | h
        · simp [h]
        · exact List.mem_cons_of_mem _ (ih (some w) v h)

/-- Invariant of the progress accumulator: keys are distinct chunk indices
below `n` and each recorded `loaded` is at most that chunk's size. -/
def GoodAcc (n : Nat) (csize : Nat → Nat) (acc : List (Nat × Nat)) : Prop :=
  (acc.map Prod.fst).Nodup ∧ ∀ q ∈ acc, q.1 < n ∧ q.2 ≤ csize q.1

theorem updProgress_mem :
    ∀ (acc : List (Nat × Nat)) (i l : Nat) (q : Nat × Nat),
      q ∈ updProgress acc i l → q = (i, l) ∨ q ∈ acc := by
  intro acc
  induction acc with
  | nil =>
    intro i l q hq
    simp only [updProgress, List.mem_singleton] at hq
    left
    exact hq
  | cons p rest ih =>
    intro i l q hq
    obtain ⟨j, v⟩ := p
    by_cases hj : j = i
    · simp only [updProgress, if_pos hj] at hq
      rcases List.mem_cons.mp hq with h | h
      · left; exact h
      · right; exact List.mem_cons_of_mem _ h
    · simp only [updProgress, if_neg hj] at hq
      rcases List.mem_cons.mp hq with h | h
      · right; simp [h]
      · rcases ih i l q h with h2 | h2
        · left; exact h2
        · right; exact List.mem_cons_of_mem _ h2

theorem updProgress_keys_mem (acc : List (Nat × Nat)) (i l x : Nat)
    (hx : x ∈ (updProgress acc i l).map Prod.fst) :
    x = i ∨ x ∈ acc.map Prod.fst := by
  obtain ⟨q, hq, rfl⟩ := List.mem_map.mp hx
  rcases updProgress_mem acc i l q hq with h | h
  · left; rw [h]
  · right; exact List.mem_map_of_mem _ h

theorem updProgress_nodup :
    ∀ (acc : List (Nat × Nat)) (i l : Nat),
      (acc.map Prod.fst).Nodup → ((updProgress acc i l).map Prod.fst).Nodup := by
  intro acc
  induction acc with
  | nil =>
    intro i l _
    simp [updProgress]
  | cons p rest ih =>
    intro i l hnd
    obtain ⟨j, v⟩ := p
    simp only [List.map_cons, List.nodup_cons] at hnd
    by_cases hj : j = i
    · subst hj
      have hupd : updProgress ((j, v) :: rest) j l = (j, l) :: rest := by
        simp [updProgress]
      rw [hupd, List.map_cons, List.nodup_cons]
      exact ⟨hnd.1, hnd.2⟩
    · simp only [updProgress, if_neg hj, List.map_cons, List.nodup_cons]
      constructor
      · intro hmem
        rcases updProgress_keys_mem rest i l j hmem with h | h
        · exact hj h
        · exact hnd.1 h
      · exact ih i l hnd.2

theorem updProgress_good (n : Nat) (csize : Nat → Nat) (acc : List (Nat × Nat))
    (i l : Nat) (hi : i < n) (hl : l ≤ csize i) (hg : GoodAcc n csize acc) :
    GoodAcc n csize (updProgress acc i l) := by
  refine ⟨updProgress_nodup acc i l hg.1, ?_⟩
  intro q hq
  rcases updProgress_mem acc i l q hq with h | h
  · rw [h]
    exact ⟨hi, hl⟩
  · exact hg.2 q h

theorem sumLoaded_le (n : Nat) (csize : Nat → Nat) :
    ∀ acc : List (Nat × Nat), GoodAcc n csize acc →
      sumLoaded acc ≤ ∑ i in Finset.range n, csize i := by
  have hkey : ∀ acc : List (Nat × Nat), (acc.map Prod.fst).Nodup →
      (∀ q ∈ acc, q.2 ≤ csize q.1) →
      sumLoaded acc ≤ ∑ i in (acc.map Prod.fst).toFinset, csize i := by
    intro acc
    induction acc with
    | nil =>
      intro _ _
      simp [sumLoaded]
    | cons q rest ih =>
      intro hnd hb
      obtain ⟨j, v⟩ := q
      simp only [List.map_cons, List.nodup_cons] at hnd
      have hj : j ∉ (rest.map Prod.fst).toFinset := by
        simp only [List.mem_toFinset]
        exact hnd.1
      rw [show sumLoaded ((j, v) :: rest) = v + sumLoaded rest from rfl,
        List.map_cons, List.toFinset_cons, Finset.sum_insert hj]
      have h1 : v ≤ csize j := hb (j, v) (by simp)
      have h2 := ih hnd.2 (fun q hq => hb q (by simp [hq]))
      omega
  intro acc hg
  have h1 := hkey acc hg.1 (fun q hq => (hg.2 q hq).2)
  have h2 : (acc.map Prod.fst).toFinset ⊆ Finset.range n := by
    intro x hx
    simp only [List.mem_toFinset] at hx
    obtain ⟨q, hq, rfl⟩ := List.mem_map.mp hx
    exact Finset.mem_range.mpr (hg.2 q hq).1
  calc sumLoaded acc ≤ ∑ i in (acc.map Prod.fst).toFinset, csize i := h1
    _ ≤ ∑ i in Finset.range n, csize i := Finset.sum_le_sum_of_subset h2

theorem accStates_good (n : Nat) (csize : Nat → Nat) :
    ∀ (events : List ChunkProgress) (acc0 : List (Nat × Nat)),
      GoodAcc n csize acc0 →
      (∀ e ∈ events, e.index < n ∧ e.loaded ≤ csize e.index) →
      ∀ acc ∈ accStates acc0 events, GoodAcc n csize acc := by
  intro events
  induction events with
  | nil =>
    intro acc0 _ _ acc hacc
    simp [accStates] at hacc
  | cons e rest ih =>
    intro acc0 hg hb acc hacc
    have he := hb e (by simp)
    have hg' : GoodAcc n csize (updProgress acc0 e.index e.loaded) :=
      updProgress_good n csize acc0 e.index e.loaded he.1 he.2 hg
    simp only [accStates, List.mem_cons] at hacc
    rcases hacc with h | h
    · rw [h]
      exact hg'
    · exact ih _ hg' (fun x hx => hb x (by simp [hx])) acc h

/-- Claim C6 (amended): each emitted progress value equals the sum of the
latest reported `loaded` per chunk divided by `fileSize` (no clamping is
applied), and a value is emitted exactly when it is not smaller than the
previously emitted value — equal values may repeat — so the emitted sequence
is monotonically non-decreasing (not strictly increasing); the values lie in
`[0, 1]` whenever every chunk's reported `loaded` stays within that chunk's
size and the chunk sizes sum to `fileSize`. -/
theorem progress_emits_monotone (fileSize n : Nat) (csize : Nat → Nat)
    (events : List ChunkProgress)
    (hidx : ∀ e ∈ events, e.index < n)
    (hld : ∀ e ∈ events, e.loaded ≤ csize e.index)
    (hfs : ∑ i in Finset.range n, csize i = fileSize) :
    List.Chain' (fun x y : ℚ => x ≤ y) (progressEmits fileSize events) ∧
    ∀ v ∈ progressEmits fileSize events, 0 ≤ v ∧ v ≤ 1 := by
  constructor
  · exact emitNotLess_chain _
  · intro v hv
    have hvin : v ∈ progressRatios fileSize events :=
      emitNotLess_subset _ none v hv
    obtain ⟨acc, hacc, rfl⟩ := List.mem_map.mp hvin
    have hg0 : GoodAcc n csize [] := ⟨by simp, by simp⟩
    have hg := accStates_good n csize events [] hg0
      (fun e he => ⟨hidx e he, hld e he⟩) acc hacc
    have hsum : sumLoaded acc ≤ fileSize := by
      rw [← hfs]
      exact sumLoaded_le n csize acc hg
    constructor
    · exact div_nonneg (by positivity) (by positivity)
    · by_cases hf : fileSize = 0
      · subst hf
        norm_num
      · have hpos : (0 : ℚ) < (fileSize : ℚ) := by
          exact_mod_cast Nat.pos_of_ne_zero hf
        rw [div_le_one hpos]
        exact_mod_cast hsum

/-- Witness for `progress_emits_monotone`: two chunks of size 50 in a
100-byte file, reporting 30 then 50 bytes. -/
theorem progress_emits_monotone_witness :
    ((∀ e ∈ [ChunkProgress.mk 0 30, ChunkProgress.mk 1 50], e.index < 2) ∧
      (∀ e ∈ [ChunkProgress.mk 0 30, ChunkProgress.mk 1 50],
        e.loaded ≤ (fun _ => 50) e.index) ∧
      (∑ i in Finset.range 2, (fun _ => 50) i = 100)) ∧
    (List.Chain' (fun x y : ℚ => x ≤ y)
        (progressEmits 100 [ChunkProgress.mk 0 30, ChunkProgress.mk 1 50]) ∧
      ∀ v ∈ progressEmits 100 [ChunkProgress.mk 0 30, ChunkProgress.mk 1 50],
        0 ≤ v ∧ v ≤ 1) :=
  ⟨⟨by decide, by decide, by decide⟩,
    progress_emits_monotone 100 2 (fun _ => 50)
      [ChunkProgress.mk 0 30, ChunkProgress.mk 1 50]
      (by decide) (by decide) (by decide)⟩

/-- The state of an rxjs `Subject`: `complete()` sets `isStopped`;
`unsubscribe()` sets both `isStopped` and `closed`. -/
structure SubjectState where
  closed : Bool
  isStopped : Bool
deriving DecidableEq, Repr

def subjectComplete (s : SubjectState) : SubjectState :=
  { s with isStopped := true }

def subjectUnsubscribe (_ : SubjectState) : SubjectState :=
  { closed := true, isStopped := true }

inductive RxError where
  | objectUnsubscribed
deriving DecidableEq, Repr

/-- `Subject.prototype.next`: throws `ObjectUnsubscribedError` on a closed
(unsubscribed) subject, is a silent no-op on a merely stopped one, and
otherwise delivers to the observers.  The subject's own state is unchanged;
the returned flag records whether observers were notified. -/
def subjectNext (s : SubjectState) : Except RxError Bool :=
  if s.closed then Except.error RxError.objectUnsubscribed
  else Except.ok (!s.isStopped)

/-- The six control subjects the engine owns (unnamed rxjs 6 source,
lines 179-188). -/
structure EngineSubjects where
  startSubject : SubjectState
  retrySubject : SubjectState
  abortSubject : SubjectState
  progressSubject : SubjectState
  controlSubject : SubjectState
  errorSubject : SubjectState
deriving DecidableEq, Repr

/-- `cleanUp` (unnamed source lines 193-206): every control channel is
completed and then unsubscribed in a single pass. -/
def cleanUp (e : EngineSubjects) : EngineSubjects :=
  { startSubject := subjectUnsubscribe (subjectComplete e.startSubject),
    retrySubject := subjectUnsubscribe (subjectComplete e.retrySubject),
    abortSubject := subjectUnsubscribe (subjectComplete e.abortSubject),
    progressSubject := subjectUnsubscribe (subjectComplete e.progressSubject),
    controlSubject := subjectUnsubscribe (subjectComplete e.controlSubject),
    errorSubject := subjectUnsubscribe (subjectComplete e.errorSubject) }

/-- `start()` (unnamed source lines 282-286): guarded by
`!startSubject.closed`; the engine state is returned together with a flag
recording whether a value was delivered. -/
def startMethod (e : EngineSubjects) : Except RxError (EngineSubjects × Bool) :=
  if e.startSubject.closed then Except.ok (e, false)
  else do
    let d ← subjectNext e.startSubject
    Except.ok (e, d)

/-- `pause()` (lines 293-297): `controlSubject.next(true)` guarded by
`!controlSubject.closed`. -/
def pauseMethod (e : EngineSubjects) : Except RxError (EngineSubjects × Bool) :=
  if e.controlSubject.closed then Except.ok (e, false)
  else do
    let d ← subjectNext e.controlSubject
    Except.ok (e, d)

/-- `resume()` (lines 298-302): `controlSubject.next(false)` guarded by
`!controlSubject.closed`. -/
def resumeMethod (e : EngineSubjects) : Except RxError (EngineSubjects × Bool) :=
  if e.controlSubject.closed then Except.ok (e, false)
  else do
    let d ← subjectNext e.controlSubject
    Except.ok (e, d)

/-- `retry()` (lines 303-307): `retrySubject.next(true)` guarded by
`!retrySubject.closed`. -/
def retryMethod (e : EngineSubjects) : Except RxError (EngineSubjects × Bool) :=
  if e.retrySubject.closed then Except.ok (e, false)
  else do
    let d ← subjectNext e.retrySubject
    Except.ok (e, d)

/-- `abort()` (lines 308-312): `abortSubject.next()` guarded by
`!abortSubject.closed`. -/
def abortMethod (e : EngineSubjects) : Except RxError (EngineSubjects × Bool) :=
  if e.abortSubject.closed then Except.ok (e, false)
  else do
    let d ← subjectNext e.abortSubject
    Except.ok (e, d)

/-- Claim C8: after the teardown pass closes every control channel, each of
the five engine methods is a total no-op — it throws nothing, delivers
nothing, and leaves the engine state unchanged — so repeated calls on closed
channels are idempotent. -/
theorem controls_noop_after_cleanup (e : EngineSubjects) :
    startMethod (cleanUp e) = Except.ok (cleanUp e, false) ∧
    pauseMethod (cleanUp e) = Except.ok (cleanUp e, false) ∧
    resumeMethod (cleanUp e) = Except.ok (cleanUp e, false) ∧
    retryMethod (cleanUp e) = Except.ok (cleanUp e, false) ∧
    abortMethod (cleanUp e) = Except.ok (cleanUp e, false) :=
  ⟨rfl, rfl, rfl, rfl, rfl⟩

/-- Closed instance of `controls_noop_after_cleanup` on a fresh engine. -/
theorem controls_noop_after_cleanup_witness :
    startMethod
        (cleanUp (EngineSubjects.mk ⟨false, false⟩ ⟨false, false⟩ ⟨false, false⟩
          ⟨false, false⟩ ⟨false, false⟩ ⟨false, false⟩)) =
      Except.ok
        (cleanUp (EngineSubjects.mk ⟨false, false⟩ ⟨false, false⟩ ⟨false, false⟩
          ⟨false, false⟩ ⟨false, false⟩ ⟨false, false⟩), false) :=
  (controls_noop_after_cleanup
    (EngineSubjects.mk ⟨false, false⟩ ⟨false, false⟩ ⟨false, false⟩
      ⟨false, false⟩ ⟨false, false⟩ ⟨false, false⟩)).1

/-- The tagged events `createAction` produces on the output stream. -/
inductive UploadEvent where
  | start
  | chunkstart
  | progressEv (v : ℚ)
  | pausable (b : Bool)
  | retryable (b : Bool)
  | errorEv
  | finish
deriving DecidableEq

/-- The payload the flag-cleanup branch merged into `upload$` would produce
per abort emission (unnamed source line 279): `concatMap` of each abort value
to `of(pausable(false), retryable(false))`. -/
def abortCleanupEvents : List UploadEvent :=
  [UploadEvent.pausable false, UploadEvent.retryable false]

/-- A subscriber of `abortSubject` in the unnamed rxjs 6 source, listed in
subscription order.  Subscription of `upload$` proceeds depth-first through
the operator chain, so `takeUntil(abortSubject)` (line 275) registers on
`abortSubject` while the main chain is being subscribed — before the outer
`merge` subscribes the flag-cleanup branch `abortSubject.pipe(concatMap(...))`
(line 279).  The notifier is therefore the first observer, the cleanup branch
the second. -/
inductive AbortObserver where
  | takeUntilNotifier
  | cleanupBranch
deriving DecidableEq, Repr

/-- State threaded through one `abortSubject.next()` delivery: whether the
cleanup-branch subscriber has been stopped, whether the teardown `cleanUp`
(lines 193-206, installed as `tap`'s complete handler at line 276) has run,
and the events the cleanup branch emitted. -/
structure AbortDeliveryState where
  branchStopped : Bool
  cleanupRan : Bool
  branchEvents : List UploadEvent
deriving DecidableEq

/-- `Subject.prototype.next` iterates a snapshot of the observer list in
subscription order; each rxjs subscriber drops a `next` once it is stopped.
Delivering to the `takeUntil` notifier completes the main chain, whose `tap`
complete handler runs `cleanUp` re-entrantly; `cleanUp` calls
`abortSubject.complete()`, which stops every other subscriber of
`abortSubject` — in particular the flag-cleanup branch — before the delivery
loop reaches it.  An unstopped cleanup branch would emit
`abortCleanupEvents`. -/
def deliverAbort : List AbortObserver → AbortDeliveryState → AbortDeliveryState
  | [], st => st
  | AbortObserver.takeUntilNotifier :: rest, st =>
    deliverAbort rest { st with cleanupRan := true, branchStopped := true }
  | AbortObserver.cleanupBranch :: rest, st =>
    if st.branchStopped then
      deliverAbort rest st
    else
      deliverAbort rest { st with branchEvents := st.branchEvents ++ abortCleanupEvents }

/-- The observers of `abortSubject` in subscription order (see
`AbortObserver`). -/
def abortObservers : List AbortObserver :=
  [AbortObserver.takeUntilNotifier, AbortObserver.cleanupBranch]

/-- The delivery state after `abort()` fires on a freshly subscribed
pipeline. -/
def abortDeliveryResult : AbortDeliveryState :=
  deliverAbort abortObservers (AbortDeliveryState.mk false false [])

/-- The full `upload$` output when `abort()` fires at instant `t`: the main
chain truncated by `takeUntil(abortSubject)` (line 275) followed by whatever
the merged flag-cleanup branch emitted during the abort delivery. -/
def outputOnAbort (mainEvents : List UploadEvent) (t : Nat) : List UploadEvent :=
  mainEvents.take t ++ abortDeliveryResult.branchEvents

/-- Counterexample to claim C9: on abort the flag-cleanup branch is stopped
by the re-entrant `cleanUp` before the abort value reaches it, so it emits
nothing — at the traced input (abort after `start, pausable(true)`), neither
`pausable(false)` nor `retryable(false)` appears in the output stream. -/
theorem abort_cleanup_events_cex :
    abortDeliveryResult.branchEvents = [] ∧
    UploadEvent.pausable false ∉
      outputOnAbort [UploadEvent.start, UploadEvent.pausable true] 2 ∧
    UploadEvent.retryable false ∉
      outputOnAbort [UploadEvent.start, UploadEvent.pausable true] 2 ∧
    outputOnAbort [UploadEvent.start, UploadEvent.pausable true] 2 ≠
      [UploadEvent.start, UploadEvent.pausable true]
        ++ [UploadEvent.pausable false, UploadEvent.retryable false] := by
  decide

/-- Claim C9 (amended): when abort fires before a finish was emitted, the
pipeline terminates with no finish event and no event follows the truncated
main chain; contrary to the claimed flag cleanup, `pausable(false)` and
`retryable(false)` are NOT emitted — the `takeUntil` notifier is
`abortSubject`'s first observer, its completion runs `cleanUp`, and
`abortSubject.complete()` stops the merged cleanup branch before the abort
value is delivered to it — so the output is exactly the truncated main chain
and the teardown closes the stream. -/
theorem abort_truncates_without_cleanup_events (mainEvents : List UploadEvent) (t : Nat)
    (hnf : UploadEvent.finish ∉ mainEvents.take t) :
    outputOnAbort mainEvents t = mainEvents.take t ∧
    UploadEvent.finish ∉ outputOnAbort mainEvents t ∧
    abortDeliveryResult.branchEvents = [] ∧
    abortDeliveryResult.cleanupRan = true := by
  have hres : abortDeliveryResult = AbortDeliveryState.mk true true [] := rfl
  have hout : outputOnAbort mainEvents t = mainEvents.take t := by
    rw [outputOnAbort, hres]
    simp
  refine ⟨hout, ?_, by rw [hres], by rw [hres]⟩
  rw [hout]
  exact hnf

/-- Witness for `abort_truncates_without_cleanup_events`: abort after
`start, pausable(true)`. -/
theorem abort_truncates_without_cleanup_events_witness :
    (UploadEvent.finish ∉ [UploadEvent.start, UploadEvent.pausable true].take 2) ∧
    (outputOnAbort [UploadEvent.start, UploadEvent.pausable true] 2 =
        [UploadEvent.start, UploadEvent.pausable true].take 2 ∧
      UploadEvent.finish ∉ outputOnAbort [UploadEvent.start, UploadEvent.pausable true] 2 ∧
      abortDeliveryResult.branchEvents = [] ∧
      abortDeliveryResult.cleanupRan = true) :=
  ⟨by decide, abort_truncates_without_cleanup_events
    [UploadEvent.start, UploadEvent.pausable true] 2 (by decide)⟩

end RxFileUpload
